import Mathlib

/-
Verification of the feature-selection / bipartite-network pipeline.

Each Lean definition is a shallow embedding of a function or script
fragment of the repository; numeric cells are modelled as rationals
(the scripts only ever compare, add, divide and take maxima of floats,
and every claim under study is order-theoretic, not about rounding),
and missing values (NaN) as `Option` where a claim depends on them.
-/

/-! ### Edge lists

`processed_features.csv` rows: (biomarker, dependency, importance_score).
Used both for the Correlation Scorer output (feature_selection.py) and
for the Edge Sparsifier / Graph Builder input (community_detection.py). -/

structure Edge where
  biomarker : String
  dependency : String
  score : ℚ
  deriving DecidableEq

/-! ### Edge Sparsifier (community_detection.py, lines 68-94)

The script renormalizes per dependency, drops edges below `EDGE_MIN`,
then keeps the top `TOPK_PER_DEP` rows per dependency and finally the
top `TOPK_PER_BM` rows per biomarker, each truncation implemented as
`sort_values` by (key ascending, importance_score descending) followed
by `groupby(key).head(k)`.  The pandas sort order on score ties is
implementation-defined; we model a stable sort, which none of the
claims (all about counts and membership) depend on. -/

def EDGE_MIN : ℚ := 15 / 1000

def TOPK_PER_DEP : Nat := 250

def TOPK_PER_BM : Nat := 150

/-- Sort relation of `sort_values([key, "importance_score"], ascending=[True, False])`. -/
def sparsRel (key : Edge → String) (e f : Edge) : Prop :=
  key e < key f ∨ (key e = key f ∧ f.score ≤ e.score)

instance (key : Edge → String) : DecidableRel (sparsRel key) := fun e f =>
  inferInstanceAs (Decidable (key e < key f ∨ (key e = key f ∧ f.score ≤ e.score)))

/-- `groupby(key).head(k)` on a row list: walk the rows in order, keeping a row
iff fewer than `k` rows of its key group have been kept so far (`cnt` carries
the number already kept per key). -/
def takePerKey (key : Edge → String) (k : Nat) : List Edge → (String → Nat) → List Edge
  | [], _ => []
  | e :: rest, cnt =>
    if cnt (key e) < k then
      e :: takePerKey key k rest (fun s => if s = key e then cnt s + 1 else cnt s)
    else
      takePerKey key k rest cnt

/-- One truncation step of the sparsifier: sort by (key asc, score desc), then
take the head `k` of every key group. -/
def topkPerKey (key : Edge → String) (k : Nat) (l : List Edge) : List Edge :=
  takePerKey key k (List.insertionSort (sparsRel key) l) (fun _ => 0)

/-- `features_df[features_df["importance_score"] >= EDGE_MIN]` (a plain
threshold on the score; at this point of the script all scores are
nonnegative, so it agrees with an absolute-value threshold). -/
def minFilter (l : List Edge) : List Edge :=
  l.filter (fun e => EDGE_MIN ≤ e.score)

/-- Lines 80-94 of community_detection.py: minimum-weight filter, then
dependency-side truncation, then biomarker-side truncation. -/
def sparsifyCD (l : List Edge) : List Edge :=
  topkPerKey (fun e => e.biomarker) TOPK_PER_BM
    (topkPerKey (fun e => e.dependency) TOPK_PER_DEP (minFilter l))

theorem takePerKey_countP_le (key : Edge → String) (k : Nat) (d : String) :
    ∀ (l : List Edge) (cnt : String → Nat),
      (takePerKey key k l cnt).countP (fun e => key e == d) ≤ k - cnt d := by
  intro l
  induction l with
  | nil => intro cnt; simp [takePerKey]
  | cons e rest ih =>
    intro cnt
    by_cases hk : cnt (key e) < k
    · simp only [takePerKey, if_pos hk, List.countP_cons]
      have h1 := ih (fun s => if s = key e then cnt s + 1 else cnt s)
      by_cases hd : key e = d
      · subst hd
        simp only [eq_self_iff_true, if_true, beq_self_eq_true] at h1 ⊢
        omega
      · have hne : ¬ d = key e := fun h => hd h.symm
        have hb : (key e == d) = false := beq_false_of_ne hd
        simp only [if_neg hne] at h1
        simp only [hb, Bool.false_eq_true, if_false]
        omega
    · simp only [takePerKey, if_neg hk]
      exact ih cnt

theorem takePerKey_sublist (key : Edge → String) (k : Nat) :
    ∀ (l : List Edge) (cnt : String → Nat), List.Sublist (takePerKey key k l cnt) l := by
  intro l
  induction l with
  | nil => intro cnt; simp [takePerKey]
  | cons e rest ih =>
    intro cnt
    by_cases hk : cnt (key e) < k
    · simp only [takePerKey, if_pos hk]
      exact (ih _).cons₂ e
    · simp only [takePerKey, if_neg hk]
      exact (ih cnt).cons e

theorem takePerKey_mem (key : Edge → String) (k : Nat) (d : String) :
    ∀ (l : List Edge) (cnt : String → Nat), cnt d < k → (∃ e ∈ l, key e = d) →
      ∃ e ∈ takePerKey key k l cnt, key e = d := by
  intro l
  induction l with
  | nil =>
    intro cnt _ h
    rcases h with ⟨e, he, _⟩
    exact absurd he (List.not_mem_nil e)
  | cons e rest ih =>
    intro cnt hcnt h
    by_cases hd : key e = d
    · have hk : cnt (key e) < k := by rw [hd]; exact hcnt
      refine ⟨e, ?_, hd⟩
      simp only [takePerKey, if_pos hk]
      exact List.mem_cons_self e _
    · rcases h with ⟨f, hf, hfd⟩
      have hfrest : f ∈ rest := by
        rcases List.mem_cons.mp hf with h1 | h1
        · exact absurd (h1 ▸ hfd) hd
        · exact h1
      by_cases hk : cnt (key e) < k
      · simp only [takePerKey, if_pos hk]
        have hcd : (fun s => if s = key e then cnt s + 1 else cnt s) d < k := by
          have hne : ¬ d = key e := fun h => hd h.symm
          simpa [hne] using hcnt
        rcases ih (fun s => if s = key e then cnt s + 1 else cnt s) hcd ⟨f, hfrest, hfd⟩ with
          ⟨g, hg, hgd⟩
        exact ⟨g, List.mem_cons_of_mem e hg, hgd⟩
      · simp only [takePerKey, if_neg hk]
        exact ih cnt hcnt ⟨f, hfrest, hfd⟩

theorem topkPerKey_countP_key_le (key : Edge → String) (k : Nat) (l : List Edge)
    (d : String) : (topkPerKey key k l).countP (fun e => key e == d) ≤ k := by
  have h := takePerKey_countP_le key k d (List.insertionSort (sparsRel key) l) (fun _ => 0)
  simpa [topkPerKey] using h

theorem topkPerKey_countP_le (key : Edge → String) (k : Nat) (l : List Edge)
    (p : Edge → Bool) : (topkPerKey key k l).countP p ≤ l.countP p := by
  have h1 : (topkPerKey key k l).countP p ≤
      (List.insertionSort (sparsRel key) l).countP p :=
    (takePerKey_sublist key k _ _).countP_le p
  have h2 : (List.insertionSort (sparsRel key) l).countP p = l.countP p :=
    (List.perm_insertionSort (sparsRel key) l).countP_eq p
  omega

theorem topkPerKey_mem (key : Edge → String) (k : Nat) (l : List Edge) (d : String)
    (hk : 0 < k) (h : ∃ e ∈ l, key e = d) : ∃ e ∈ topkPerKey key k l, key e = d := by
  rcases h with ⟨e, he, hed⟩
  have hsort : e ∈ List.insertionSort (sparsRel key) l := by
    rw [List.mem_insertionSort]
    exact he
  exact takePerKey_mem key k d _ (fun _ => 0) hk ⟨e, hsort, hed⟩

/-- C1: on every input edge list the sparsifier applies the minimum-weight
filter first, then the per-dependency top-K truncation, then the per-biomarker
top-K truncation, and afterwards every dependency node carries at most
`TOPK_PER_DEP` (250) edges and every biomarker node at most
`TOPK_PER_BM` (150) edges. -/
theorem c1_sparsifier_order_and_caps (edges : List Edge) :
    sparsifyCD edges =
      topkPerKey (fun e => e.biomarker) TOPK_PER_BM
        (topkPerKey (fun e => e.dependency) TOPK_PER_DEP (minFilter edges)) ∧
    (∀ d : String, (sparsifyCD edges).countP (fun e => e.dependency == d) ≤ TOPK_PER_DEP) ∧
    (∀ b : String, (sparsifyCD edges).countP (fun e => e.biomarker == b) ≤ TOPK_PER_BM) := by
  refine ⟨rfl, ?_, ?_⟩
  · intro d
    have h1 : (sparsifyCD edges).countP (fun e => e.dependency == d) ≤
        (topkPerKey (fun e => e.dependency) TOPK_PER_DEP (minFilter edges)).countP
          (fun e => e.dependency == d) :=
      topkPerKey_countP_le (fun e => e.biomarker) TOPK_PER_BM _ _
    have h2 := topkPerKey_countP_key_le (fun e => e.dependency) TOPK_PER_DEP
      (minFilter edges) d
    omega
  · intro b
    exact topkPerKey_countP_key_le (fun e => e.biomarker) TOPK_PER_BM _ b

/-! ### Per-dependency renormalization

community_detection.py, lines 68-72:
`groupby("dependency")["importance_score"].transform(lambda x: x / x.max())`.
`maxQ` is the maximum of a group of scores; pandas only ever evaluates
`x.max()` on an actual (hence nonempty) group, where `maxQ` agrees with it
(the `[]` case is unreachable inside a transform). -/

def maxQ : List ℚ → ℚ
  | [] => 0
  | [x] => x
  | x :: y :: t => max x (maxQ (y :: t))

/-- The importance scores of the group of rows whose dependency is `d`. -/
def depGroupScores (edges : List Edge) (d : String) : List ℚ :=
  (edges.filter (fun e => e.dependency == d)).map (fun e => e.score)

/-- One row of the unguarded transform: divide the score by the maximum of
the row's dependency group (computed over `all`). -/
def renormScore (all : List Edge) (e : Edge) : Edge :=
  { e with score := e.score / maxQ (depGroupScores all e.dependency) }

def renormWith (all : List Edge) (l : List Edge) : List Edge :=
  l.map (renormScore all)

/-- The per-dependency renormalization of community_detection.py (no guard on
the divisor; the scores reaching it are all positive). -/
def renormCD (edges : List Edge) : List Edge :=
  renormWith edges edges

@[simp] theorem renormScore_dependency (all : List Edge) (e : Edge) :
    (renormScore all e).dependency = e.dependency := rfl

@[simp] theorem renormScore_biomarker (all : List Edge) (e : Edge) :
    (renormScore all e).biomarker = e.biomarker := rfl

@[simp] theorem renormScore_score (all : List Edge) (e : Edge) :
    (renormScore all e).score = e.score / maxQ (depGroupScores all e.dependency) := rfl

theorem le_maxQ : ∀ (l : List ℚ), ∀ a ∈ l, a ≤ maxQ l := by
  intro l
  induction l with
  | nil => intro a ha; exact absurd ha (List.not_mem_nil a)
  | cons x t ih =>
    intro a ha
    cases t with
    | nil =>
      have : a = x := List.mem_singleton.mp ha
      simp [maxQ, this]
    | cons y s =>
      simp only [maxQ]
      rcases List.mem_cons.mp ha with h | h
      · exact h ▸ le_max_left _ _
      · exact le_trans (ih a h) (le_max_right _ _)

theorem maxQ_mem : ∀ (l : List ℚ), l ≠ [] → maxQ l ∈ l := by
  intro l
  induction l with
  | nil => intro h; exact absurd rfl h
  | cons x t ih =>
    intro _
    cases t with
    | nil => simp [maxQ]
    | cons y s =>
      simp only [maxQ]
      rcases max_cases x (maxQ (y :: s)) with ⟨heq, _⟩ | ⟨heq, _⟩
      · rw [heq]; exact List.mem_cons_self _ _
      · rw [heq]; exact List.mem_cons_of_mem x (ih (by simp))

theorem maxQ_map_div (M : ℚ) (hM : 0 < M) :
    ∀ (l : List ℚ), maxQ (l.map (fun q => q / M)) = maxQ l / M := by
  intro l
  induction l with
  | nil => simp [maxQ]
  | cons x t ih =>
    cases t with
    | nil => simp [maxQ]
    | cons y s =>
      simp only [List.map_cons, maxQ] at ih ⊢
      rw [ih]
      exact max_div_div_right hM.le x (maxQ (y :: s))

theorem depGroupScores_renormWith (all : List Edge) (d : String) :
    ∀ (l : List Edge),
      depGroupScores (renormWith all l) d
        = (depGroupScores l d).map (fun q => q / maxQ (depGroupScores all d)) := by
  intro l
  induction l with
  | nil => rfl
  | cons e t ih =>
    by_cases hd : e.dependency = d
    · have hb : (e.dependency == d) = true := beq_iff_eq.mpr hd
      simp only [depGroupScores, renormWith, List.map_cons, List.filter_cons,
        renormScore_dependency, hb, if_true] at ih ⊢
      simp only [List.map_cons, renormScore_score, hd]
      exact congrArg (List.cons _) ih
    · have hb : (e.dependency == d) = false := beq_false_of_ne hd
      simp only [depGroupScores, renormWith, List.map_cons, List.filter_cons,
        renormScore_dependency, hb, Bool.false_eq_true, if_false] at ih ⊢
      exact ih

theorem depGroupScores_nonempty (edges : List Edge) (d : String)
    (hne : ∃ e ∈ edges, e.dependency = d) : depGroupScores edges d ≠ [] := by
  rcases hne with ⟨e, he, hed⟩
  have hmem : e ∈ edges.filter (fun e => e.dependency == d) :=
    List.mem_filter.mpr ⟨he, beq_iff_eq.mpr hed⟩
  intro hempty
  have : e.score ∈ depGroupScores edges d := List.mem_map_of_mem _ hmem
  rw [hempty] at this
  exact absurd this (List.not_mem_nil _)

theorem maxQ_depGroupScores_attained (edges : List Edge) (d : String)
    (hne : ∃ e ∈ edges, e.dependency = d) :
    ∃ e ∈ edges, e.dependency = d ∧ e.score = maxQ (depGroupScores edges d) := by
  have h1 : maxQ (depGroupScores edges d) ∈ depGroupScores edges d :=
    maxQ_mem _ (depGroupScores_nonempty edges d hne)
  rcases List.mem_map.mp h1 with ⟨e, hef, hesc⟩
  rcases List.mem_filter.mp hef with ⟨he, hed⟩
  exact ⟨e, he, beq_iff_eq.mp hed, hesc⟩

/-- C8: when every input edge has a positive score (as guaranteed by the
positive-weight filter preceding the renormalization), every dependency that
has at least one edge has a positive group maximum, the renormalization makes
that group maximum exactly 1, and the dependency still has at least one edge
after the `EDGE_MIN` filter and the dependency-side top-K truncation. -/
theorem c8_renorm_max_one_and_dep_survives (edges : List Edge)
    (hpos : ∀ e ∈ edges, 0 < e.score) (d : String)
    (hne : ∃ e ∈ edges, e.dependency = d) :
    0 < maxQ (depGroupScores edges d) ∧
    maxQ (depGroupScores (renormCD edges) d) = 1 ∧
    ∃ e ∈ topkPerKey (fun e => e.dependency) TOPK_PER_DEP (minFilter (renormCD edges)),
      e.dependency = d := by
  rcases maxQ_depGroupScores_attained edges d hne with ⟨e0, he0, he0d, he0sc⟩
  have hM : 0 < maxQ (depGroupScores edges d) := he0sc ▸ hpos e0 he0
  refine ⟨hM, ?_, ?_⟩
  · rw [show renormCD edges = renormWith edges edges from rfl,
      depGroupScores_renormWith, maxQ_map_div _ hM]
    exact div_self (ne_of_gt hM)
  · have hmem : renormScore edges e0 ∈ renormCD edges :=
      List.mem_map_of_mem _ he0
    have hsc : (renormScore edges e0).score = 1 := by
      rw [renormScore_score, he0d, he0sc]
      exact div_self (ne_of_gt hM)
    have hflt : renormScore edges e0 ∈ minFilter (renormCD edges) := by
      refine List.mem_filter.mpr ⟨hmem, ?_⟩
      rw [hsc]
      norm_num [EDGE_MIN]
    refine topkPerKey_mem _ TOPK_PER_DEP _ d (by norm_num [TOPK_PER_DEP]) ?_
    exact ⟨renormScore edges e0, hflt, by rw [renormScore_dependency]; exact he0d⟩

/-- Witness for C8 at a concrete one-edge input. -/
theorem c8_witness :
    (∀ e ∈ [Edge.mk "B" "D" (1/2)], 0 < e.score) ∧
    (∃ e ∈ [Edge.mk "B" "D" (1/2)], e.dependency = "D") ∧
    (0 < maxQ (depGroupScores [Edge.mk "B" "D" (1/2)] "D") ∧
      maxQ (depGroupScores (renormCD [Edge.mk "B" "D" (1/2)]) "D") = 1 ∧
      ∃ e ∈ topkPerKey (fun e => e.dependency) TOPK_PER_DEP
          (minFilter (renormCD [Edge.mk "B" "D" (1/2)])), e.dependency = "D") :=
  ⟨by norm_num, by simp,
    c8_renorm_max_one_and_dep_survives [Edge.mk "B" "D" (1/2)] (by norm_num) "D" (by simp)⟩

/-! ### Bipartite Graph Builder (community_detection.py, lines 48-106)

The script keeps rows whose dependency is listed in `dependencies.csv`
(line 50) and whose score is positive (line 53), takes the distinct
biomarker names of the surviving rows as the biomarker node set (line 61),
adds biomarker nodes with attribute `bipartite="biomarker"` and then
dependency nodes with `bipartite="dependency"` (lines 65-66, the second
call overwriting the attribute of any name present in both sets),
renormalizes and sparsifies (lines 68-94), and finally adds an edge for a
row only when its biomarker is among the biomarker nodes and its
dependency among the listed dependencies (lines 100-105). -/

inductive NodeClass where
  | biomarker
  | dependency
  deriving DecidableEq

/-- Lines 50 and 53: keep rows with a listed dependency and a positive score. -/
def cdFiltered (features : List Edge) (validDeps : List String) : List Edge :=
  (features.filter (fun e => e.dependency ∈ validDeps)).filter (fun e => 0 < e.score)

/-- Line 61: the distinct biomarker names of the filtered rows. -/
def cdBiomarkers (features : List Edge) (validDeps : List String) : List String :=
  ((cdFiltered features validDeps).map (fun e => e.biomarker)).dedup

/-- Final `bipartite` attribute of a node: biomarker nodes are added first,
dependency nodes second, so a name occurring in both sets ends up with the
attribute `dependency`. -/
def nodeClass (validDeps : List String) (n : String) : NodeClass :=
  if n ∈ validDeps then NodeClass.dependency else NodeClass.biomarker

/-- Lines 100-105: add an edge for a row only when both endpoints belong to
their declared node sets. -/
def buildEdges (bms validDeps : List String) (l : List Edge) : List (String × String × ℚ) :=
  l.filterMap (fun e =>
    if e.biomarker ∈ bms ∧ e.dependency ∈ validDeps then
      some (e.biomarker, e.dependency, e.score)
    else none)

/-- The edge set of the graph built by community_detection.py from a raw
feature table and the listed dependencies. -/
def cdEdges (features : List Edge) (validDeps : List String) : List (String × String × ℚ) :=
  buildEdges (cdBiomarkers features validDeps) validDeps
    (sparsifyCD (renormCD (cdFiltered features validDeps)))

theorem mem_buildEdges (bms validDeps : List String) (l : List Edge)
    (p : String × String × ℚ) (hp : p ∈ buildEdges bms validDeps l) :
    p.1 ∈ bms ∧ p.2.1 ∈ validDeps := by
  rcases List.mem_filterMap.mp hp with ⟨e, _, hfe⟩
  by_cases hg : e.biomarker ∈ bms ∧ e.dependency ∈ validDeps
  · rw [if_pos hg] at hfe
    cases hfe
    exact hg
  · rw [if_neg hg] at hfe
    exact absurd hfe (by simp)

/-- C2 (amended): the builder adds an edge only when its endpoints belong to
the biomarker and listed-dependency node sets respectively; and provided the
two node sets are disjoint, no built edge joins two nodes of the same class
and none is a self-loop.  (Without the disjointness proviso the conclusion
fails: see the counterexample.) -/
theorem c2_amended_graph_builder (features : List Edge) (validDeps : List String) :
    (∀ p ∈ cdEdges features validDeps,
      p.1 ∈ cdBiomarkers features validDeps ∧ p.2.1 ∈ validDeps) ∧
    ((∀ x ∈ cdBiomarkers features validDeps, x ∉ validDeps) →
      ∀ p ∈ cdEdges features validDeps,
        nodeClass validDeps p.1 ≠ nodeClass validDeps p.2.1 ∧ p.1 ≠ p.2.1) := by
  constructor
  · intro p hp
    exact mem_buildEdges _ _ _ p hp
  · intro hdisj p hp
    rcases mem_buildEdges _ _ _ p hp with ⟨hb, hd⟩
    have hnb : p.1 ∉ validDeps := hdisj p.1 hb
    constructor
    · rw [nodeClass, if_neg hnb, nodeClass, if_pos hd]
      intro h
      exact NodeClass.noConfusion h
    · intro h
      exact hnb (h ▸ hd)

/-- Witness for C2 (amended) at a concrete input with disjoint node sets. -/
theorem c2_amended_witness :
    (∀ x ∈ cdBiomarkers [Edge.mk "B" "D" 1] ["D"], x ∉ ["D"]) ∧
    ∀ p ∈ cdEdges [Edge.mk "B" "D" 1] ["D"],
      nodeClass ["D"] p.1 ≠ nodeClass ["D"] p.2.1 ∧ p.1 ≠ p.2.1 := by
  refine ⟨?_, (c2_amended_graph_builder [Edge.mk "B" "D" 1] ["D"]).2 ?_⟩ <;>
    simp [cdBiomarkers, cdFiltered]

/-- C2 counterexample: with the single feature row ("X", "X", 1) and "X"
also a listed dependency, the pipeline builds the self-loop edge
("X", "X", 1), joining a node of class `dependency` to itself, so the claim
as stated (no same-class edge, no self-loop) is false. -/
theorem c2_counterexample :
    ("X", "X", (1 : ℚ)) ∈ cdEdges [Edge.mk "X" "X" 1] ["X"] ∧
    nodeClass ["X"] "X" = NodeClass.dependency := by
  constructor
  · norm_num [cdEdges, buildEdges, cdBiomarkers, cdFiltered, sparsifyCD, topkPerKey,
      takePerKey, minFilter, renormCD, renormWith, renormScore, depGroupScores, maxQ,
      List.insertionSort, List.orderedInsert, EDGE_MIN, TOPK_PER_DEP, TOPK_PER_BM,
      List.filter, List.filterMap]
  · rfl

/-! ### Correlation Scorer (feature_selection.py, lines 64-90)

The script z-scores the biomarker and dependency matrices and computes the
correlation row of each biomarker as a block dot product; those correlation
values enter the embedding as the input `row` of `(dependency, signed
correlation)` pairs.  For each biomarker it takes the absolute values
(`s = corr_block.loc[b].abs()`), the 50 largest (`s.nlargest`, sorted
descending, ties kept in first-position order), filters them against
`MIN_ABS_CORR`, and appends one output row per surviving entry with the
value taken from the absolute-value series.  Biomarkers are processed in
batches of `BATCH = 200` columns. -/

def TOPK_PER_BIOMARKER : Nat := 50

def MIN_ABS_CORR : ℚ := 15 / 100

def BATCH : Nat := 200

/-- `corr_block.loc[b].abs()`. -/
def absRow (row : List (String × ℚ)) : List (String × ℚ) :=
  row.map (fun p => (p.1, |p.2|))

/-- Descending order on series values, as used by `Series.nlargest`. -/
def nlDesc (p q : String × ℚ) : Prop := q.2 ≤ p.2

instance : DecidableRel nlDesc := fun p q => inferInstanceAs (Decidable (q.2 ≤ p.2))

instance : IsTotal (String × ℚ) nlDesc := ⟨fun p q => le_total q.2 p.2⟩

instance : IsTrans (String × ℚ) nlDesc := ⟨fun _ _ _ hab hbc => le_trans hbc hab⟩

/-- `Series.nlargest(k)`: the `k` largest values, descending, first-position
tie-breaking (a stable descending sort followed by `take k`). -/
def nlargest (k : Nat) (l : List (String × ℚ)) : List (String × ℚ) :=
  (List.insertionSort nlDesc l).take k

/-- Lines 77-81: per biomarker, absolute values, top 50, threshold filter,
and one output edge per surviving entry, the score taken from the
absolute-value series. -/
def selectForBiomarker (b : String) (row : List (String × ℚ)) : List Edge :=
  ((nlargest TOPK_PER_BIOMARKER (absRow row)).filter (fun p => MIN_ABS_CORR ≤ p.2)).map
    (fun p => Edge.mk b p.1 p.2)

/-- Split a list into chunks of size `b + 1` (the batching loop
`range(0, len(names), BATCH)`; called with `b = BATCH - 1`). -/
def chunked {α : Type} (b : Nat) : List α → List (List α)
  | [] => []
  | x :: xs => (x :: xs.take b) :: chunked b (xs.drop b)
termination_by l => l.length
decreasing_by simp only [List.length_drop, List.length_cons]; omega

/-- Lines 73-81: the full batched loop over all biomarker correlation rows. -/
def scorer (corrRows : List (String × List (String × ℚ))) : List Edge :=
  (chunked (BATCH - 1) corrRows).flatMap
    (fun batch => batch.flatMap (fun br => selectForBiomarker br.1 br.2))

/-- Lines 88-90: guarded per-dependency divisor,
`x.max() if x.max() > 0 else 1.0`. -/
def fsDivisor (rows : List Edge) (d : String) : ℚ :=
  if 0 < maxQ (depGroupScores rows d) then maxQ (depGroupScores rows d) else 1

/-- Lines 87-90: per-dependency renormalization, applied only when the
output frame is nonempty (`if not out_df.empty`). -/
def renormFS (rows : List Edge) : List Edge :=
  if rows.isEmpty then rows
  else rows.map (fun e => { e with score := e.score / fsDivisor rows e.dependency })

theorem chunked_flatMap {α β : Type} (b : Nat) (g : α → List β) (l : List α) :
    (chunked b l).flatMap (fun c => c.flatMap g) = l.flatMap g := by
  generalize hn : l.length = n
  induction n using Nat.strong_induction_on generalizing l with
  | _ n ih =>
    cases l with
    | nil => simp [chunked]
    | cons x xs =>
      rw [chunked]
      have hlen : (xs.drop b).length < n := by
        rw [← hn]
        simp only [List.length_drop, List.length_cons]
        omega
      have hxs := ih (xs.drop b).length hlen (xs.drop b) rfl
      rw [List.flatMap_cons, hxs, List.flatMap_cons, List.append_assoc,
        ← List.flatMap_append, List.take_append_drop, ← List.flatMap_cons]

theorem scorer_eq_flatMap (corrRows : List (String × List (String × ℚ))) :
    scorer corrRows = corrRows.flatMap (fun br => selectForBiomarker br.1 br.2) :=
  chunked_flatMap (BATCH - 1) _ corrRows

theorem mem_selectForBiomarker (b : String) (row : List (String × ℚ)) (e : Edge)
    (he : e ∈ selectForBiomarker b row) :
    e.biomarker = b ∧ MIN_ABS_CORR ≤ e.score ∧
      ∃ p ∈ nlargest TOPK_PER_BIOMARKER (absRow row),
        e.dependency = p.1 ∧ e.score = p.2 := by
  rcases List.mem_map.mp he with ⟨p, hp, hpe⟩
  rcases List.mem_filter.mp hp with ⟨hptake, hpmin⟩
  refine ⟨?_, ?_, p, hptake, ?_, ?_⟩
  · rw [← hpe]
  · rw [← hpe]
    exact of_decide_eq_true hpmin
  · rw [← hpe]
  · rw [← hpe]

theorem mem_scorer_score (corrRows : List (String × List (String × ℚ))) (e : Edge)
    (he : e ∈ scorer corrRows) : MIN_ABS_CORR ≤ e.score := by
  rw [scorer_eq_flatMap] at he
  rcases List.mem_flatMap.mp he with ⟨br, _, hmem⟩
  exact (mem_selectForBiomarker br.1 br.2 e hmem).2.1

theorem sorted_take_countP (l : List (String × ℚ)) (hs : List.Sorted nlDesc l) :
    ∀ (k : Nat) (p : String × ℚ), p ∈ l.take k →
      l.countP (fun q => decide (p.2 < q.2)) < k := by
  induction l with
  | nil =>
    intro k p hp
    rw [List.take_nil] at hp
    exact absurd hp (List.not_mem_nil p)
  | cons x xs ih =>
    rcases List.sorted_cons.mp hs with ⟨hx, hxs⟩
    intro k p hp
    cases k with
    | zero =>
      rw [List.take_zero] at hp
      exact absurd hp (List.not_mem_nil p)
    | succ k =>
      rw [List.take_succ_cons] at hp
      rcases List.mem_cons.mp hp with hpx | hptail
      · have h0 : (x :: xs).countP (fun q => decide (p.2 < q.2)) = 0 := by
          rw [List.countP_eq_zero]
          intro q hq
          rcases List.mem_cons.mp hq with hqx | hq2
          · subst hqx
            simp [hpx]
          · simp only [decide_eq_true_eq, hpx]
            exact not_lt.mpr (hx q hq2)
        omega
      · have h1 := ih hxs k p hptail
        have h2 := List.countP_cons (fun q => decide (p.2 < q.2)) x xs
        have h3 : (if decide (p.2 < x.2) = true then (1 : Nat) else 0) ≤ 1 := by
          split
          · exact le_refl 1
          · exact Nat.zero_le 1
        omega

/-- C4 (amended): for every biomarker row the scorer emits at most
`TOPK_PER_BIOMARKER` edges; every emitted edge carries that biomarker, a
score that is the absolute value of one of the row's correlations, meets
`MIN_ABS_CORR`, and is among the top-K absolute correlations (fewer than K
row entries have a strictly larger absolute value); and the batched loop
emits exactly the concatenation of the per-biomarker selections. -/
theorem c4_amended_scorer_topk_abs (corrRows : List (String × List (String × ℚ)))
    (b : String) (row : List (String × ℚ)) :
    scorer corrRows = corrRows.flatMap (fun br => selectForBiomarker br.1 br.2) ∧
    (selectForBiomarker b row).length ≤ TOPK_PER_BIOMARKER ∧
    ∀ e ∈ selectForBiomarker b row,
      e.biomarker = b ∧ MIN_ABS_CORR ≤ e.score ∧
      (∃ c, (e.dependency, c) ∈ row ∧ e.score = |c|) ∧
      row.countP (fun q => decide (e.score < |q.2|)) < TOPK_PER_BIOMARKER := by
  refine ⟨scorer_eq_flatMap corrRows, ?_, ?_⟩
  · calc (selectForBiomarker b row).length
        = ((nlargest TOPK_PER_BIOMARKER (absRow row)).filter
            (fun p => MIN_ABS_CORR ≤ p.2)).length := List.length_map _ _
      _ ≤ (nlargest TOPK_PER_BIOMARKER (absRow row)).length := List.length_filter_le _ _
      _ ≤ TOPK_PER_BIOMARKER := by
          rw [nlargest, List.length_take]
          exact min_le_left _ _
  · intro e he
    rcases mem_selectForBiomarker b row e he with ⟨hb, hmin, p, hptake, hdep, hsc⟩
    have hpabs : p ∈ absRow row := by
      have h1 : p ∈ List.insertionSort nlDesc (absRow row) :=
        List.mem_of_mem_take hptake
      rw [List.mem_insertionSort] at h1
      exact h1
    rcases List.mem_map.mp hpabs with ⟨q, hq, hqp⟩
    refine ⟨hb, hmin, ⟨q.2, ?_, ?_⟩, ?_⟩
    · rw [hdep, ← hqp]
      exact hq
    · rw [hsc, ← hqp]
    · have hsorted : List.Sorted nlDesc (List.insertionSort nlDesc (absRow row)) :=
        List.sorted_insertionSort nlDesc (absRow row)
      have h1 := sorted_take_countP _ hsorted TOPK_PER_BIOMARKER p hptake
      have h2 : (List.insertionSort nlDesc (absRow row)).countP
          (fun q => decide (p.2 < q.2)) = (absRow row).countP (fun q => decide (p.2 < q.2)) :=
        (List.perm_insertionSort nlDesc (absRow row)).countP_eq _
      have h3 : (absRow row).countP (fun q => decide (p.2 < q.2)) =
          row.countP (fun q => decide (p.2 < |q.2|)) := by
        rw [absRow, List.countP_map]
        rfl
      rw [hsc]
      omega

/-- Witness for C4 (amended) at the one-entry row [("D", -1)]. -/
theorem c4_amended_witness :
    Edge.mk "B" "D" 1 ∈ selectForBiomarker "B" [("D", -1)] ∧
    (Edge.mk "B" "D" 1).biomarker = "B" ∧
    MIN_ABS_CORR ≤ (Edge.mk "B" "D" 1).score ∧
    (∃ c, ((Edge.mk "B" "D" 1).dependency, c) ∈ [("D", (-1 : ℚ))] ∧
      (Edge.mk "B" "D" 1).score = |c|) ∧
    [("D", (-1 : ℚ))].countP
      (fun q => decide ((Edge.mk "B" "D" 1).score < |q.2|)) < TOPK_PER_BIOMARKER := by
  have hmem : Edge.mk "B" "D" 1 ∈ selectForBiomarker "B" [("D", -1)] := by
    norm_num [selectForBiomarker, nlargest, absRow, List.insertionSort, List.orderedInsert,
      MIN_ABS_CORR, TOPK_PER_BIOMARKER, abs_neg]
  exact ⟨hmem,
    (c4_amended_scorer_topk_abs [] "B" [("D", -1)]).2.2 (Edge.mk "B" "D" 1) hmem⟩

/-- C4 counterexample: at the correlation row [("D", -1)] the scorer retains
the pair ("B", "D") but records the score 1 — the absolute value — while the
signed correlation is -1, so "records the signed correlation value as the
score" is false. -/
theorem c4_counterexample :
    selectForBiomarker "B" [("D", -1)] = [Edge.mk "B" "D" 1] ∧
    ((1 : ℚ)) ≠ -1 := by
  constructor
  · norm_num [selectForBiomarker, nlargest, absRow, List.insertionSort, List.orderedInsert,
      MIN_ABS_CORR, TOPK_PER_BIOMARKER, abs_neg]
  · norm_num

theorem mem_depGroupScores_self (rows : List Edge) (e : Edge) (he : e ∈ rows) :
    e.score ∈ depGroupScores rows e.dependency :=
  List.mem_map_of_mem _ (List.mem_filter.mpr ⟨he, beq_self_eq_true _⟩)

/-- C6: every edge the scorer emits has score at least `MIN_ABS_CORR`, so the
per-dependency renormalization (division by the group maximum, which equals
the maximum absolute score since all emitted scores are positive) leaves
every importance score in the half-open interval (0, 1]. -/
theorem c6_renormalized_scores_unit_interval (corrRows : List (String × List (String × ℚ)))
    (hne : scorer corrRows ≠ []) :
    ∀ e ∈ renormFS (scorer corrRows), 0 < e.score ∧ e.score ≤ 1 := by
  intro e he
  have hbool : ¬ ((scorer corrRows).isEmpty = true) := fun h => hne (List.isEmpty_iff.mp h)
  rw [renormFS, if_neg hbool] at he
  rcases List.mem_map.mp he with ⟨f, hf, rfl⟩
  have hmin : MIN_ABS_CORR ≤ f.score := mem_scorer_score _ f hf
  have hpos : 0 < f.score := lt_of_lt_of_le (by norm_num [MIN_ABS_CORR]) hmin
  have hgrp : f.score ∈ depGroupScores (scorer corrRows) f.dependency :=
    mem_depGroupScores_self _ f hf
  have hM : f.score ≤ maxQ (depGroupScores (scorer corrRows) f.dependency) :=
    le_maxQ _ _ hgrp
  have hMpos : 0 < maxQ (depGroupScores (scorer corrRows) f.dependency) :=
    lt_of_lt_of_le hpos hM
  have hdiv : fsDivisor (scorer corrRows) f.dependency =
      maxQ (depGroupScores (scorer corrRows) f.dependency) := if_pos hMpos
  constructor
  · show 0 < f.score / fsDivisor (scorer corrRows) f.dependency
    rw [hdiv]
    exact div_pos hpos hMpos
  · show f.score / fsDivisor (scorer corrRows) f.dependency ≤ 1
    rw [hdiv]
    exact (div_le_one hMpos).mpr hM

/-- Witness for C6 at a concrete one-biomarker input. -/
theorem c6_witness :
    scorer [("B", [("D", (1 : ℚ))])] ≠ [] ∧
    ∀ e ∈ renormFS (scorer [("B", [("D", (1 : ℚ))])]), 0 < e.score ∧ e.score ≤ 1 := by
  have hne : scorer [("B", [("D", (1 : ℚ))])] ≠ [] := by
    norm_num [scorer, chunked, BATCH, selectForBiomarker, nlargest, absRow,
      List.insertionSort, List.orderedInsert, MIN_ABS_CORR, TOPK_PER_BIOMARKER]
  exact ⟨hne, c6_renormalized_scores_unit_interval _ hne⟩

/-- C10: the guarded divisor of the scorer renormalization is positive on
every input (1 is substituted when the group maximum is not positive), and
under the precondition that every retained score meets `MIN_ABS_CORR`, every
nonempty group maximum is positive and the substitute branch is never
taken — the divisor is the true group maximum. -/
theorem c10_divisor_positive_guard_unreachable (rows : List Edge) :
    (∀ d : String, 0 < fsDivisor rows d) ∧
    ((∀ e ∈ rows, MIN_ABS_CORR ≤ e.score) → ∀ e ∈ rows,
      0 < maxQ (depGroupScores rows e.dependency) ∧
      fsDivisor rows e.dependency = maxQ (depGroupScores rows e.dependency)) := by
  constructor
  · intro d
    by_cases h : 0 < maxQ (depGroupScores rows d)
    · rw [fsDivisor, if_pos h]
      exact h
    · rw [fsDivisor, if_neg h]
      norm_num
  · intro hmin e he
    have h1 : e.score ∈ depGroupScores rows e.dependency :=
      mem_depGroupScores_self rows e he
    have h2 := le_maxQ _ _ h1
    have hMpos : 0 < maxQ (depGroupScores rows e.dependency) :=
      lt_of_lt_of_le (lt_of_lt_of_le (by norm_num [MIN_ABS_CORR]) (hmin e he)) h2
    exact ⟨hMpos, if_pos hMpos⟩

/-- Witness for C10 at a concrete one-edge input. -/
theorem c10_witness :
    (0 < fsDivisor [Edge.mk "B" "D" 1] "D") ∧
    (∀ e ∈ [Edge.mk "B" "D" 1], MIN_ABS_CORR ≤ e.score) ∧
    (0 < maxQ (depGroupScores [Edge.mk "B" "D" 1] "D") ∧
      fsDivisor [Edge.mk "B" "D" 1] "D" = maxQ (depGroupScores [Edge.mk "B" "D" 1] "D")) := by
  have hmin : ∀ e ∈ [Edge.mk "B" "D" 1], MIN_ABS_CORR ≤ e.score := by
    norm_num [MIN_ABS_CORR]
  refine ⟨(c10_divisor_positive_guard_unreachable [Edge.mk "B" "D" 1]).1 "D", hmin, ?_⟩
  exact (c10_divisor_positive_guard_unreachable [Edge.mk "B" "D" 1]).2 hmin
    (Edge.mk "B" "D" 1) (List.mem_singleton.mpr rfl)

/-! ### Binarization (preprocess.py, lines 74-86)

`binarize_any_nonzero`: `df.fillna(0)` then `(df.abs() > 0).astype(np.int8)`.
`binarize_cnv_loss`: `df.fillna(0)` then `(df < threshold).astype(np.int8)`,
called with `threshold = -0.3` (line 167).  Cells are `Option ℚ`, `none`
standing for NaN; the result cells are the 0/1 values of the int8 frames. -/

def fillnaCell (c : Option ℚ) : ℚ := c.getD 0

def anyNonzeroCell (c : Option ℚ) : ℚ := if 0 < |fillnaCell c| then 1 else 0

def cnvLossCell (threshold : ℚ) (c : Option ℚ) : ℚ := if fillnaCell c < threshold then 1 else 0

def binarize_any_nonzero (df : List (List (Option ℚ))) : List (List ℚ) :=
  df.map (fun row => row.map anyNonzeroCell)

def binarize_cnv_loss (threshold : ℚ) (df : List (List (Option ℚ))) : List (List ℚ) :=
  df.map (fun row => row.map (cnvLossCell threshold))

/-- The threshold of the only call site, `binarize_cnv_loss(cnv, threshold=-0.3)`. -/
def CNV_LOSS_THRESHOLD : ℚ := -(3/10)

/-- Cell (i, j) of a table, if present. -/
def cellAt {α : Type} (t : List (List α)) (i j : Nat) : Option α :=
  (t[i]?).bind (fun r => r[j]?)

theorem cellAt_map {α β : Type} (f : α → β) (t : List (List α)) (i j : Nat) :
    cellAt (t.map (fun row => row.map f)) i j = (cellAt t i j).map f := by
  rw [cellAt, cellAt, List.getElem?_map]
  cases t[i]? with
  | none => rfl
  | some r =>
    show (r.map f)[j]? = (r[j]?).map f
    exact List.getElem?_map f r j

theorem mem_map_table_cases {α β : Type} (f : α → β) (t : List (List α)) (v : β)
    (hv : ∃ row ∈ t.map (fun row => row.map f), v ∈ row) : ∃ c, v = f c := by
  rcases hv with ⟨row, hrow, hvrow⟩
  rcases List.mem_map.mp hrow with ⟨r0, _, hr0⟩
  rw [← hr0] at hvrow
  rcases List.mem_map.mp hvrow with ⟨c, _, hc⟩
  exact ⟨c, hc.symm⟩

/-- C9: `binarize_any_nonzero` maps NaN cells to 0 and nonzero cells of either
sign to 1; `binarize_cnv_loss` at its fixed threshold -0.3 maps NaN cells to 0
and cells strictly below the threshold to 1 (others to 0); both emit only the
values 0 and 1, with no NaN cell remaining. -/
theorem c9_binarizers (df : List (List (Option ℚ))) (i j : Nat) :
    (cellAt df i j = some none → cellAt (binarize_any_nonzero df) i j = some 0) ∧
    (∀ x : ℚ, cellAt df i j = some (some x) → x ≠ 0 →
      cellAt (binarize_any_nonzero df) i j = some 1) ∧
    (∀ row ∈ binarize_any_nonzero df, ∀ v ∈ row, v = 0 ∨ v = 1) ∧
    (cellAt df i j = some none → cellAt (binarize_cnv_loss CNV_LOSS_THRESHOLD df) i j = some 0) ∧
    (∀ x : ℚ, cellAt df i j = some (some x) → x < CNV_LOSS_THRESHOLD →
      cellAt (binarize_cnv_loss CNV_LOSS_THRESHOLD df) i j = some 1) ∧
    (∀ x : ℚ, cellAt df i j = some (some x) → ¬ x < CNV_LOSS_THRESHOLD →
      cellAt (binarize_cnv_loss CNV_LOSS_THRESHOLD df) i j = some 0) ∧
    (∀ row ∈ binarize_cnv_loss CNV_LOSS_THRESHOLD df, ∀ v ∈ row, v = 0 ∨ v = 1) := by
  refine ⟨?_, ?_, ?_, ?_, ?_, ?_, ?_⟩
  · intro h
    rw [binarize_any_nonzero, cellAt_map, h]
    simp [anyNonzeroCell, fillnaCell]
  · intro x h hx
    rw [binarize_any_nonzero, cellAt_map, h]
    show some (anyNonzeroCell (some x)) = some 1
    rw [anyNonzeroCell]
    rw [if_pos (abs_pos.mpr (show fillnaCell (some x) ≠ 0 from hx))]
  · intro row hrow v hv
    rcases mem_map_table_cases anyNonzeroCell df v ⟨row, hrow, hv⟩ with ⟨c, hc⟩
    rw [hc, anyNonzeroCell]
    by_cases hpos : 0 < |fillnaCell c|
    · rw [if_pos hpos]; exact Or.inr rfl
    · rw [if_neg hpos]; exact Or.inl rfl
  · intro h
    rw [binarize_cnv_loss, cellAt_map, h]
    show some (cnvLossCell CNV_LOSS_THRESHOLD none) = some 0
    rw [cnvLossCell]
    rw [if_neg (by norm_num [CNV_LOSS_THRESHOLD, fillnaCell])]
  · intro x h hx
    rw [binarize_cnv_loss, cellAt_map, h]
    show some (cnvLossCell CNV_LOSS_THRESHOLD (some x)) = some 1
    rw [cnvLossCell]
    rw [if_pos (show fillnaCell (some x) < CNV_LOSS_THRESHOLD from hx)]
  · intro x h hx
    rw [binarize_cnv_loss, cellAt_map, h]
    show some (cnvLossCell CNV_LOSS_THRESHOLD (some x)) = some 0
    rw [cnvLossCell]
    rw [if_neg (show ¬ fillnaCell (some x) < CNV_LOSS_THRESHOLD from hx)]
  · intro row hrow v hv
    rcases mem_map_table_cases (cnvLossCell CNV_LOSS_THRESHOLD) df v ⟨row, hrow, hv⟩ with ⟨c, hc⟩
    rw [hc, cnvLossCell]
    by_cases hlt : fillnaCell c < CNV_LOSS_THRESHOLD
    · rw [if_pos hlt]; exact Or.inr rfl
    · rw [if_neg hlt]; exact Or.inl rfl

/-- Witness for C9 at concrete 1-by-2 tables. -/
theorem c9_witness :
    cellAt (binarize_any_nonzero [[some (5 : ℚ), none]]) 0 1 = some 0 ∧
    cellAt (binarize_any_nonzero [[some (5 : ℚ), none]]) 0 0 = some 1 ∧
    cellAt (binarize_cnv_loss CNV_LOSS_THRESHOLD [[some (-(1 : ℚ)), none]]) 0 0 = some 1 ∧
    cellAt (binarize_cnv_loss CNV_LOSS_THRESHOLD [[some (-(1 : ℚ)), none]]) 0 1 = some 0 :=
  ⟨(c9_binarizers [[some (5 : ℚ), none]] 0 1).1 rfl,
    (c9_binarizers [[some (5 : ℚ), none]] 0 0).2.1 5 rfl (by norm_num),
    (c9_binarizers [[some (-(1 : ℚ)), none]] 0 0).2.2.2.2.1 (-1) rfl
      (by norm_num [CNV_LOSS_THRESHOLD]),
    (c9_binarizers [[some (-(1 : ℚ)), none]] 0 1).2.2.2.1 rfl⟩

/-! ### Table Merger (preprocess.py, lines 52-61 and 188-230)

A loaded table is its ModelID index together with one numeric row per
model; `merged.join(df, how="inner")` keeps the rows of the left table
whose ModelID occurs in the right table, appending the right row (the
column-name suffixing of `suffix_overlaps` does not affect the row set).
The merge loop folds this join over the loaded tables, starting from the
first. -/

abbrev MTable := List (String × List ℚ)

def tableIds (t : MTable) : List String := t.map (fun r => r.1)

/-- `left.join(right, how="inner")` on ModelID-unique tables. -/
def joinInner (l r : MTable) : MTable :=
  l.filterMap (fun p =>
    match r.find? (fun q => q.1 == p.1) with
    | some q => some (p.1, p.2 ++ q.2)
    | none => none)

/-- Lines 207-214: fold of inner joins over the loaded tables. -/
def mergeTables : List MTable → MTable
  | [] => []
  | t :: ts => ts.foldl joinInner t

theorem find_id_isSome (r : MTable) (i : String) :
    (r.find? (fun q => q.1 == i)).isSome = true ↔ i ∈ tableIds r := by
  rw [List.find?_isSome, tableIds]
  constructor
  · rintro ⟨q, hq, hqi⟩
    exact List.mem_map.mpr ⟨q, hq, beq_iff_eq.mp hqi⟩
  · intro h
    rcases List.mem_map.mp h with ⟨q, hq, hqi⟩
    exact ⟨q, hq, beq_iff_eq.mpr hqi⟩

theorem tableIds_joinInner_sublist (r : MTable) :
    ∀ l : MTable, List.Sublist (tableIds (joinInner l r)) (tableIds l) := by
  intro l
  induction l with
  | nil => simp [joinInner, tableIds]
  | cons p t ih =>
    rw [joinInner, List.filterMap_cons]
    cases hfind : r.find? (fun q => q.1 == p.1) with
    | none => exact (ih : List.Sublist _ _).cons p.1
    | some q => exact (ih : List.Sublist _ _).cons₂ p.1

theorem mem_tableIds_joinInner (r : MTable) (i : String) :
    ∀ l : MTable, i ∈ tableIds (joinInner l r) ↔ i ∈ tableIds l ∧ i ∈ tableIds r := by
  intro l
  induction l with
  | nil => simp [joinInner, tableIds]
  | cons p t ih =>
    rw [joinInner, List.filterMap_cons]
    cases hfind : r.find? (fun q => q.1 == p.1) with
    | none =>
      have hni : p.1 ∈ tableIds r → False := by
        intro hmem
        have := (find_id_isSome r p.1).mpr hmem
        rw [hfind] at this
        exact absurd this (by simp)
      rw [show tableIds (p :: t) = p.1 :: tableIds t from rfl, List.mem_cons]
      rw [joinInner] at ih
      rw [ih]
      constructor
      · rintro ⟨h1, h2⟩
        exact ⟨Or.inr h1, h2⟩
      · rintro ⟨h1 | h1, h2⟩
        · exact absurd (h1 ▸ h2) hni
        · exact ⟨h1, h2⟩
    | some q =>
      have hyi : p.1 ∈ tableIds r := by
        refine (find_id_isSome r p.1).mp ?_
        rw [hfind]
        rfl
      rw [show tableIds ((p.1, p.2 ++ q.2) :: List.filterMap _ t) =
        p.1 :: tableIds (joinInner t r) from rfl]
      rw [show tableIds (p :: t) = p.1 :: tableIds t from rfl]
      rw [List.mem_cons, List.mem_cons, ih]
      constructor
      · rintro (rfl | ⟨h1, h2⟩)
        · exact ⟨Or.inl rfl, hyi⟩
        · exact ⟨Or.inr h1, h2⟩
      · rintro ⟨rfl | h1, h2⟩
        · exact Or.inl rfl
        · exact Or.inr ⟨h1, h2⟩

theorem mergeFold_ids_sublist : ∀ (ts : List MTable) (t : MTable),
    List.Sublist (tableIds (ts.foldl joinInner t)) (tableIds t) := by
  intro ts
  induction ts with
  | nil => intro t; exact List.Sublist.refl _
  | cons s ts ih =>
    intro t
    rw [List.foldl_cons]
    exact (ih (joinInner t s)).trans (tableIds_joinInner_sublist s t)

theorem mem_mergeFold_ids : ∀ (ts : List MTable) (t : MTable) (i : String),
    i ∈ tableIds (ts.foldl joinInner t) ↔ i ∈ tableIds t ∧ ∀ s ∈ ts, i ∈ tableIds s := by
  intro ts
  induction ts with
  | nil =>
    intro t i
    simp
  | cons s ts ih =>
    intro t i
    rw [List.foldl_cons, ih (joinInner t s) i, mem_tableIds_joinInner]
    constructor
    · rintro ⟨⟨h1, h2⟩, h3⟩
      refine ⟨h1, ?_⟩
      intro u hu
      rcases List.mem_cons.mp hu with rfl | hu2
      · exact h2
      · exact h3 u hu2
    · rintro ⟨h1, h2⟩
      exact ⟨⟨h1, h2 s (List.mem_cons_self s ts)⟩,
        fun u hu => h2 u (List.mem_cons_of_mem s hu)⟩

theorem nodup_subset_length_le {l t : List String} (hn : l.Nodup)
    (hsub : ∀ x ∈ l, x ∈ t) : l.length ≤ t.length := by
  have h1 : l.toFinset.card = l.length := List.toFinset_card_of_nodup hn
  have h2 : l.toFinset ⊆ t.toFinset := by
    intro x hx
    exact List.mem_toFinset.mpr (hsub x (List.mem_toFinset.mp hx))
  have h3 := Finset.card_le_card h2
  have h4 := List.toFinset_card_le t
  omega

/-- C3: with every input table keyed by unique ModelIDs, a ModelID appears in
the merged output iff it appears in every input table (inner-join row set =
intersection), and the merged row count is at most every input row count,
hence at most the minimum. -/
theorem c3_merge_is_intersection (tables : List MTable) (hne : tables ≠ [])
    (hnd : ∀ t ∈ tables, (tableIds t).Nodup) :
    (∀ i : String, i ∈ tableIds (mergeTables tables) ↔ ∀ t ∈ tables, i ∈ tableIds t) ∧
    (∀ t ∈ tables, (mergeTables tables).length ≤ t.length) := by
  cases tables with
  | nil => exact absurd rfl hne
  | cons t ts =>
    have hlen_ids : ∀ u : MTable, (tableIds u).length = u.length := fun u =>
      List.length_map u _
    constructor
    · intro i
      rw [show mergeTables (t :: ts) = ts.foldl joinInner t from rfl, mem_mergeFold_ids]
      constructor
      · rintro ⟨h1, h2⟩ s hs
        rcases List.mem_cons.mp hs with rfl | hs2
        · exact h1
        · exact h2 s hs2
      · intro h
        exact ⟨h t (List.mem_cons_self t ts), fun s hs => h s (List.mem_cons_of_mem t hs)⟩
    · intro s hs
      rw [show mergeTables (t :: ts) = ts.foldl joinInner t from rfl]
      rw [← hlen_ids (ts.foldl joinInner t)]
      rcases List.mem_cons.mp hs with rfl | hs2
      · have := (mergeFold_ids_sublist ts s).length_le
        rw [hlen_ids s] at this
        exact this
      · have hnodup : (tableIds (ts.foldl joinInner t)).Nodup :=
          (mergeFold_ids_sublist ts t).nodup (hnd t (List.mem_cons_self t ts))
        have hsub : ∀ i ∈ tableIds (ts.foldl joinInner t), i ∈ tableIds s := by
          intro i hi
          exact ((mem_mergeFold_ids ts t i).mp hi).2 s hs2
        have := nodup_subset_length_le hnodup hsub
        rw [hlen_ids s] at this
        exact this

/-- Witness for C3 at the two tables of the spec scenario: indexes {A, B, C}
and {B, C, D} merge to exactly {B, C}. -/
theorem c3_witness :
    (("B" ∈ tableIds (mergeTables
        [[("A", ([] : List ℚ)), ("B", [])], [("B", ([] : List ℚ)), ("D", [])]])) ↔
      ∀ t ∈ [[("A", ([] : List ℚ)), ("B", [])], [("B", ([] : List ℚ)), ("D", [])]],
        "B" ∈ tableIds t) ∧
    (∀ t ∈ [[("A", ([] : List ℚ)), ("B", [])], [("B", ([] : List ℚ)), ("D", [])]],
      (mergeTables
        [[("A", ([] : List ℚ)), ("B", [])], [("B", ([] : List ℚ)), ("D", [])]]).length ≤
        t.length) :=
  ⟨(c3_merge_is_intersection _ (by simp) (by simp [tableIds])).1 "B",
    (c3_merge_is_intersection _ (by simp) (by simp [tableIds])).2⟩

/-! ### Merger failure modes (preprocess.py, lines 52-61, 88-95, 171-230)

`set_index_on_modelid` raises unless the table has a `ModelID` column or its
index is already named `ModelID`; it is called for every table that loads
(inside `load_omics_table`, before the script's later steps).  Tables that
load but have zero rows are excluded from the merge list; an empty merge
list and an empty merged result each raise a `RuntimeError` before any
output file is written.  The whole run is modelled as `Except`: an `error`
result is a raised exception, and the merged table exists only in the `ok`
case, so no artifact is produced on failure. -/

structure RawTable where
  cols : List String
  indexName : Option String
  rows : List (String × List ℚ)

/-- Lines 52-61: prefer the `ModelID` column, accept an index already named
`ModelID`, otherwise give up loudly. -/
def set_index_on_modelid (r : RawTable) : Except String MTable :=
  if "ModelID" ∈ r.cols then Except.ok r.rows
  else if r.indexName = some "ModelID" then Except.ok r.rows
  else Except.error "No ModelID column or index found."

/-- Sequential loading: the first table lacking ModelID aborts the run. -/
def setIndexAll : List RawTable → Except String (List MTable)
  | [] => Except.ok []
  | r :: rest =>
    match set_index_on_modelid r with
    | Except.error e => Except.error e
    | Except.ok t =>
      match setIndexAll rest with
      | Except.error e => Except.error e
      | Except.ok ts => Except.ok (t :: ts)

/-- Lines 171-230: load and index every table, keep the nonempty ones, fail
if none remain, merge, fail if the merged result has zero rows. -/
def runMerger (raws : List RawTable) : Except String MTable :=
  match setIndexAll raws with
  | Except.error e => Except.error e
  | Except.ok tabs =>
    let usable := tabs.filter (fun t => !t.isEmpty)
    if usable.isEmpty then Except.error "No usable datasets were loaded."
    else if (mergeTables usable).isEmpty then
      Except.error "Merged result is empty (0 rows). Likely no shared ModelID overlap."
    else Except.ok (mergeTables usable)

theorem setIndexAll_error_of_bad : ∀ (raws : List RawTable),
    (∃ r ∈ raws, "ModelID" ∉ r.cols ∧ r.indexName ≠ some "ModelID") →
    ∃ e, setIndexAll raws = Except.error e := by
  intro raws
  induction raws with
  | nil =>
    rintro ⟨r, hr, _⟩
    exact absurd hr (List.not_mem_nil r)
  | cons r rest ih =>
    rintro ⟨r0, hr0, hbad⟩
    rcases List.mem_cons.mp hr0 with rfl | hr0rest
    · refine ⟨"No ModelID column or index found.", ?_⟩
      rw [setIndexAll, set_index_on_modelid, if_neg hbad.1, if_neg hbad.2]
    · cases hhead : set_index_on_modelid r with
      | error e =>
        refine ⟨e, ?_⟩
        rw [setIndexAll, hhead]
      | ok t =>
        rcases ih ⟨r0, hr0rest, hbad⟩ with ⟨e, hrest⟩
        refine ⟨e, ?_⟩
        rw [setIndexAll, hhead, hrest]

/-- C5: the merger fails fatally — its run produces an `error`, not a
table — whenever some input table lacks the ModelID identifier (as column or
index name) or the inner-joined result of the usable tables has zero rows;
and a successfully produced merged table is never empty. -/
theorem c5_merger_fails_fatally (raws : List RawTable) :
    ((∃ r ∈ raws, "ModelID" ∉ r.cols ∧ r.indexName ≠ some "ModelID") →
      ∃ e, runMerger raws = Except.error e) ∧
    (∀ tabs, setIndexAll raws = Except.ok tabs →
      mergeTables (tabs.filter (fun t => !t.isEmpty)) = [] →
      ∃ e, runMerger raws = Except.error e) ∧
    (∀ t, runMerger raws = Except.ok t → t ≠ []) := by
  refine ⟨?_, ?_, ?_⟩
  · intro hbad
    rcases setIndexAll_error_of_bad raws hbad with ⟨e, he⟩
    refine ⟨e, ?_⟩
    rw [runMerger, he]
  · intro tabs htabs hmerge
    rw [runMerger, htabs]
    by_cases hus : (tabs.filter (fun t => !t.isEmpty)).isEmpty = true
    · refine ⟨"No usable datasets were loaded.", ?_⟩
      simp only [hus, if_true]
    · refine ⟨"Merged result is empty (0 rows). Likely no shared ModelID overlap.", ?_⟩
      simp only [hus, Bool.false_eq_true, if_false]
      rw [if_pos (List.isEmpty_iff.mpr hmerge)]
  · intro t ht
    cases hall : setIndexAll raws with
    | error e =>
      rw [runMerger, hall] at ht
      exact absurd ht (by simp)
    | ok tabs =>
      rw [runMerger, hall] at ht
      dsimp only at ht
      by_cases hus : (tabs.filter (fun t => !t.isEmpty)).isEmpty = true
      · rw [if_pos hus] at ht
        exact absurd ht (by simp)
      · rw [if_neg hus] at ht
        by_cases hm : (mergeTables (tabs.filter (fun t => !t.isEmpty))).isEmpty = true
        · rw [if_pos hm] at ht
          exact absurd ht (by simp)
        · rw [if_neg hm] at ht
          cases ht
          intro hnil
          exact hm (List.isEmpty_iff.mpr hnil)

/-- Witness for C5: a table without ModelID aborts; two ModelID-keyed tables
with no shared model abort; a successful run yields a nonempty table. -/
theorem c5_witness :
    (∃ e, runMerger [RawTable.mk [] none []] = Except.error e) ∧
    (∃ e, runMerger [RawTable.mk ["ModelID"] none [("A", [])],
      RawTable.mk ["ModelID"] none [("B", [])]] = Except.error e) ∧
    ([("A", ([] : List ℚ))] ≠ []) := by
  refine ⟨?_, ?_, ?_⟩
  · exact (c5_merger_fails_fatally [RawTable.mk [] none []]).1
      ⟨RawTable.mk [] none [], by simp, by simp, by simp⟩
  · refine (c5_merger_fails_fatally _).2.1
      [[("A", ([] : List ℚ))], [("B", ([] : List ℚ))]] ?_ ?_
    · rfl
    · rfl
  · exact (c5_merger_fails_fatally [RawTable.mk ["ModelID"] none [("A", [])]]).2.2
      [("A", [])] rfl

/-! ### Community Partitioner (community_detection.py, lines 155-172)

`greedy_modularity_communities` is a library primitive; its documented
contract — assumed here as a hypothesis — is that the returned communities
form a cover of the graph's node set.  The script enumerates the returned
communities and builds the Python dict
`{node: i for i, community in enumerate(partition_sets) for node in community}`
(line 159), then writes one (node, community) row per dict entry
(lines 170-172).  Python dict semantics — a key's position is fixed by its
first insertion, a later insertion overwrites the value — is `dinsert`. -/

def dinsert (m : List (String × Nat)) (k : String) (v : Nat) : List (String × Nat) :=
  if k ∈ m.map (fun p => p.1) then
    m.map (fun p => if p.1 = k then (k, v) else p)
  else m ++ [(k, v)]

/-- The (node, community id) table of `communities.csv`: fold the dict
comprehension over all (index, community) pairs in order. -/
def buildPartition (sets : List (List String)) : List (String × Nat) :=
  ((sets.enum).flatMap (fun si => si.2.map (fun n => (n, si.1)))).foldl
    (fun acc p => dinsert acc p.1 p.2) []

theorem keys_dinsert (m : List (String × Nat)) (k : String) (v : Nat) :
    (dinsert m k v).map (fun p => p.1) =
      if k ∈ m.map (fun p => p.1) then m.map (fun p => p.1)
      else m.map (fun p => p.1) ++ [k] := by
  by_cases hk : k ∈ m.map (fun p => p.1)
  · rw [dinsert, if_pos hk, if_pos hk, List.map_map]
    refine List.map_congr_left ?_
    intro p _
    by_cases hp : p.1 = k
    · simp [hp]
    · simp [hp]
  · rw [dinsert, if_neg hk, if_neg hk, List.map_append]
    rfl

theorem nodup_keys_dinsert (m : List (String × Nat)) (k : String) (v : Nat)
    (hm : (m.map (fun p => p.1)).Nodup) : ((dinsert m k v).map (fun p => p.1)).Nodup := by
  rw [keys_dinsert]
  by_cases hk : k ∈ m.map (fun p => p.1)
  · rw [if_pos hk]
    exact hm
  · rw [if_neg hk]
    rw [List.nodup_append]
    exact ⟨hm, List.nodup_singleton k, by simpa [List.disjoint_singleton] using hk⟩

theorem mem_keys_dinsert (m : List (String × Nat)) (k : String) (v : Nat) (n : String) :
    (n ∈ (dinsert m k v).map (fun p => p.1)) ↔ n ∈ m.map (fun p => p.1) ∨ n = k := by
  rw [keys_dinsert]
  by_cases hk : k ∈ m.map (fun p => p.1)
  · rw [if_pos hk]
    constructor
    · exact Or.inl
    · rintro (h | rfl)
      · exact h
      · exact hk
  · rw [if_neg hk, List.mem_append, List.mem_singleton]

theorem nodup_keys_foldl_dinsert : ∀ (ps : List (String × Nat)) (acc : List (String × Nat)),
    (acc.map (fun p => p.1)).Nodup →
    ((ps.foldl (fun a p => dinsert a p.1 p.2) acc).map (fun p => p.1)).Nodup := by
  intro ps
  induction ps with
  | nil => intro acc h; exact h
  | cons p ps ih =>
    intro acc h
    rw [List.foldl_cons]
    exact ih (dinsert acc p.1 p.2) (nodup_keys_dinsert acc p.1 p.2 h)

theorem mem_keys_foldl_dinsert : ∀ (ps : List (String × Nat)) (acc : List (String × Nat))
    (n : String), (n ∈ (ps.foldl (fun a p => dinsert a p.1 p.2) acc).map (fun p => p.1)) ↔
      n ∈ acc.map (fun p => p.1) ∨ ∃ p ∈ ps, p.1 = n := by
  intro ps
  induction ps with
  | nil =>
    intro acc n
    simp
  | cons p ps ih =>
    intro acc n
    rw [List.foldl_cons, ih (dinsert acc p.1 p.2) n, mem_keys_dinsert]
    constructor
    · rintro ((h | rfl) | h)
      · exact Or.inl h
      · exact Or.inr ⟨p, List.mem_cons_self p ps, rfl⟩
      · rcases h with ⟨q, hq, hqn⟩
        exact Or.inr ⟨q, List.mem_cons_of_mem p hq, hqn⟩
    · rintro (h | ⟨q, hq, hqn⟩)
      · exact Or.inl (Or.inl h)
      · rcases List.mem_cons.mp hq with rfl | hq2
        · exact Or.inl (Or.inr hqn.symm)
        · exact Or.inr ⟨q, hq2, hqn⟩

theorem mem_keys_buildPartition (sets : List (List String)) (n : String) :
    (n ∈ (buildPartition sets).map (fun p => p.1)) ↔ ∃ s ∈ sets, n ∈ s := by
  rw [buildPartition, mem_keys_foldl_dinsert]
  simp only [List.map_nil, List.not_mem_nil, false_or]
  constructor
  · rintro ⟨p, hp, hpn⟩
    rcases List.mem_flatMap.mp hp with ⟨si, hsi, hpsi⟩
    rcases List.mem_map.mp hpsi with ⟨m, hm, hmp⟩
    have hs : si.2 ∈ sets := by
      rcases si with ⟨i, s⟩
      have := List.mk_mem_enum_iff_getElem?.mp hsi
      exact List.getElem?_mem this
    refine ⟨si.2, hs, ?_⟩
    have : m = n := by rw [← hpn, ← hmp]
    exact this ▸ hm
  · rintro ⟨s, hs, hns⟩
    rcases List.mem_iff_getElem?.mp hs with ⟨i, hi⟩
    refine ⟨(n, i), ?_, rfl⟩
    refine List.mem_flatMap.mpr ⟨(i, s), ?_, ?_⟩
    · exact List.mk_mem_enum_iff_getElem?.mpr hi
    · exact List.mem_map.mpr ⟨n, hns, rfl⟩

/-- C7: provided the community-detection primitive returns (per its networkx
contract) a family of communities covering the graph's node set, every node
of the graph gets exactly one row — hence exactly one community id, a
natural number and so non-negative — in the emitted assignment table. -/
theorem c7_partition_total_unique (nodes : List String) (sets : List (List String))
    (hcover : ∀ n ∈ nodes, ∃ s ∈ sets, n ∈ s) :
    ∀ n ∈ nodes, (buildPartition sets).countP (fun r => r.1 == n) = 1 := by
  intro n hn
  have hkeys : n ∈ (buildPartition sets).map (fun p => p.1) :=
    (mem_keys_buildPartition sets n).mpr (hcover n hn)
  have hnodup : ((buildPartition sets).map (fun p => p.1)).Nodup :=
    nodup_keys_foldl_dinsert _ [] (by simp)
  have hcount : List.count n ((buildPartition sets).map (fun p => p.1)) = 1 :=
    List.count_eq_one_of_mem hnodup hkeys
  rw [List.count, List.countP_map] at hcount
  exact hcount

/-- Witness for C7 at a concrete two-node graph with two communities. -/
theorem c7_witness :
    (∀ n ∈ ["a", "b"], ∃ s ∈ [["a"], ["b"]], n ∈ s) ∧
    (buildPartition [["a"], ["b"]]).countP (fun r => r.1 == "a") = 1 := by
  have hcover : ∀ n ∈ ["a", "b"], ∃ s ∈ [["a"], ["b"]], n ∈ s := by decide
  exact ⟨hcover,
    c7_partition_total_unique ["a", "b"] [["a"], ["b"]] hcover "a" (by decide)⟩
